import Mathlib

/-!
Shallow embedding of `pkg/codegen/pcl/program.go`: the PCL `Program` type,
the per-node binding-state record, package reference aggregation
(`PackageReferences`, `PackageSnapshots`, `Packages`) and the recursive
component-tree aggregators (`CollectComponents`,
`CollectNestedPackageSnapshots`, `SourceFiles`), together with theorems
settling the specification's claims about them.
-/

namespace Pcl

/-- Modelled from the spec: a resolved package schema. The `schema.Package`
type lives in `pkg/codegen/schema` (not part of this file's source); per the
spec it is an external schema definition identified by `name`. `payload`
stands for the rest of the schema contents (for instance a version) and is
used only to tell two schemas for the same name apart. -/
structure SchemaPackage where
  name : String
  payload : Nat
deriving DecidableEq

/-- Modelled from the spec: `schema.PackageReference` resolves to a full
schema via `Definition()`; a `schema.PartialPackage` additionally offers a
pruned `Snapshot()` holding only the members the program dereferenced.
Either resolution may fail, hence `Except`. -/
inductive PackageReference where
  | full (name : String) (definition : Except String SchemaPackage)
  | partialPkg (name : String) (snapshot : Except String SchemaPackage)
      (definition : Except String SchemaPackage)

/-- `Name()` of a package reference. -/
def refName : PackageReference → String
  | .full n _ => n
  | .partialPkg n _ _ => n

/-- `Definition()` of a package reference. -/
def refDefinition : PackageReference → Except String SchemaPackage
  | .full _ d => d
  | .partialPkg _ _ d => d

/-- The resolution `PackageSnapshots` performs per reference (program.go
lines 151-155): `Snapshot()` for a `PartialPackage`, `Definition()`
otherwise. -/
def resolveSnapshot : PackageReference → Except String SchemaPackage
  | .partialPkg _ s _ => s
  | .full _ d => d

/-- A parsed source file as consumed by `Program` (`syntax.File`): a name
plus raw content (the Go `Bytes` field, modelled as a `String`). -/
structure SyntaxFile where
  name : String
  content : String
deriving DecidableEq

mutual
/-- `Program` (program.go line 88): the ordered node list, the source files,
and the binder's `referencedPackages` map, modelled as an association list
from package key to reference. -/
inductive ProgramT : Type where
  | mk (nodes : List NodeT) (files : List SyntaxFile)
      (referencedPackages : List (String × PackageReference))

/-- Modelled from the spec: the `Node` variants (`ConfigVariable`, local,
`Resource`, `Component`, `OutputVariable`) are declared outside program.go.
A `Component` owns a source directory and a nested `Program`; per the spec
that source directory both namespaces its files and is its deduplication key
(`DirPath()`). -/
inductive NodeT : Type where
  | configVariable (name : String)
  | localVariable (name : String)
  | resource (name : String)
  | component (name : String) (source : String) (program : ProgramT)
  | outputVariable (name : String)
end

/-- The `Nodes` field of a program. -/
def ProgramT.nodes : ProgramT → List NodeT
  | .mk ns _ _ => ns

/-- The `files` field of a program. -/
def ProgramT.files : ProgramT → List SyntaxFile
  | .mk _ fs _ => fs

/-- The binder's `referencedPackages` map of a program. -/
def ProgramT.referencedPackages : ProgramT → List (String × PackageReference)
  | .mk _ _ rs => rs

/-- Modelled from the spec: `Component.DirPath()`, the component's source
directory, used as its key in `CollectComponents`. -/
def NodeT.dirPath : NodeT → Option String
  | .configVariable _ => none
  | .localVariable _ => none
  | .resource _ => none
  | .component _ src _ => some src
  | .outputVariable _ => none

/-- The nested `Program` of a component node (defaulting to the empty
program on the other variants, which never arises in use). -/
def nodeProgram : NodeT → ProgramT
  | .configVariable _ => .mk [] [] []
  | .localVariable _ => .mk [] [] []
  | .resource _ => .mk [] [] []
  | .component _ _ prog => prog
  | .outputVariable _ => .mk [] [] []

/-- The embedded binding-state record of every node (program.go line 55):
two booleans, `binding` and `bound`. -/
structure node where
  binding : Bool
  bound : Bool
deriving DecidableEq

/-- `markBinding` (program.go line 61): sets `binding`. -/
def markBinding (r : node) : node := { r with binding := true }

/-- `markBound` (program.go line 65): sets `bound`. -/
def markBound (r : node) : node := { r with bound := true }

/-- `isBinding` (program.go line 69): `binding && !bound`. -/
def isBinding (r : node) : Bool := r.binding && !r.bound

/-- `isBound` (program.go line 73): `bound`. -/
def isBound (r : node) : Bool := r.bound

/-- A freshly allocated node: both flags clear (the Go zero value). -/
def initNode : node := ⟨false, false⟩

/-- One call to the node state machine's mutators. -/
inductive NodeOp where
  | opMarkBinding
  | opMarkBound
deriving DecidableEq

/-- Apply one mutator call to a node. -/
def applyOp (r : node) : NodeOp → node
  | .opMarkBinding => markBinding r
  | .opMarkBound => markBound r

/-- Run a sequence of mutator calls on a node, left to right. -/
def runOps (r : node) (ops : List NodeOp) : node := ops.foldl applyOp r

/-- Lookup in an association list modelling a Go map keyed by strings. -/
def mapLookup {α : Type} (k : String) : List (String × α) → Option α
  | [] => none
  | (key, v) :: rest => if k = key then some v else mapLookup k rest

/-- Lexicographic comparison of two character sequences by code point,
the order of Go string comparison. -/
def charListLe : List Char → List Char → Bool
  | [], _ => true
  | _ :: _, [] => false
  | a :: as, b :: bs =>
    if a.toNat < b.toNat then true
    else if b.toNat < a.toNat then false
    else charListLe as bs

/-- Lexicographic comparison of two strings, the order `sort.Strings`
sorts by. -/
def strLe (a b : String) : Bool := charListLe a.data b.data

/-- `strLe` as a decidable relation. -/
def strLeP (a b : String) : Prop := strLe a b = true

instance strLePDec : DecidableRel strLeP := fun a b => Bool.decEq (strLe a b) true

/-- `sort.Strings` (program.go lines 126 and 143): ascending sort. -/
def sortStrings (l : List String) : List String := l.insertionSort strLeP

/-- The sorted key list both package accessors iterate (program.go lines
122-126 and 139-143). -/
def sortedRefKeys (p : ProgramT) : List String :=
  sortStrings (p.referencedPackages.map Prod.fst)

/-- `PackageReferences` (program.go line 121): the referenced packages in
ascending key order. -/
def PackageReferences (p : ProgramT) : List PackageReference :=
  (sortedRefKeys p).filterMap (fun k => mapLookup k p.referencedPackages)

/-- The key loop of `PackageSnapshots` (program.go lines 146-161): resolve
each reference in key order, failing fast. The Go error message wraps the
offending name in single quotes, omitted here. -/
def packageSnapshotsLoop (refs : List (String × PackageReference)) :
    List String → List SchemaPackage → Except String (List SchemaPackage)
  | [], values => .ok values
  | k :: ks, values =>
    match mapLookup k refs with
    | none => packageSnapshotsLoop refs ks values
    | some ref =>
      match resolveSnapshot ref with
      | .error e => .error ("defining package " ++ refName ref ++ ": " ++ e)
      | .ok pkg => packageSnapshotsLoop refs ks (values ++ [pkg])

/-- `PackageSnapshots` (program.go line 138): for each reference in
ascending key order, the pruned `Snapshot()` of a `PartialPackage` or the
full `Definition()` otherwise; the first error aborts the whole call. -/
def PackageSnapshots (p : ProgramT) : Except String (List SchemaPackage) :=
  packageSnapshotsLoop p.referencedPackages (sortedRefKeys p) []

/-- Outcome of `Program.Packages()`: the Go function has no error return and
panics when a `Definition()` call fails. -/
inductive PackagesOutcome where
  | ok (pkgs : List SchemaPackage)
  | panicked (msg : String)
deriving DecidableEq

/-- The loop of `Packages` (program.go lines 110-116). -/
def packagesLoop : List PackageReference → List SchemaPackage → PackagesOutcome
  | [], defs => .ok defs
  | ref :: rest, defs =>
    match refDefinition ref with
    | .error e => .panicked ("loading package definition: " ++ e)
    | .ok d => packagesLoop rest (defs ++ [d])

/-- `Packages` (program.go line 107). -/
def Packages (p : ProgramT) : PackagesOutcome :=
  packagesLoop (PackageReferences p) []

mutual
/-- `collectComponentsRecursive` (program.go line 219); the Go map
accumulator is modelled as an association list, insertion appending at the
end. -/
def collectComponentsRecursive (p : ProgramT)
    (components : List (String × NodeT)) : List (String × NodeT) :=
  match p with
  | .mk nodes _ _ => collectComponentsNodes nodes components

/-- The node loop of `collectComponentsRecursive` (program.go lines
220-228): a component whose directory is already a key is neither added nor
descended into. -/
def collectComponentsNodes (nodes : List NodeT)
    (components : List (String × NodeT)) : List (String × NodeT) :=
  match nodes with
  | [] => components
  | n :: rest =>
    match n with
    | NodeT.component _ src prog =>
      if (mapLookup src components).isSome then
        collectComponentsNodes rest components
      else
        collectComponentsNodes rest
          (collectComponentsRecursive prog (components ++ [(src, n)]))
    | _ => collectComponentsNodes rest components
end

/-- `CollectComponents` (program.go line 233). -/
def CollectComponents (p : ProgramT) : List (String × NodeT) :=
  collectComponentsRecursive p []

/-- Split a character sequence at slash characters. -/
def splitSlashAux : List Char → List Char → List (List Char)
  | [], cur => [cur.reverse]
  | c :: cs, cur =>
    if c = '/' then cur.reverse :: splitSlashAux cs []
    else splitSlashAux cs (c :: cur)

/-- Split a string at slash characters. -/
def splitSlash (s : String) : List String :=
  (splitSlashAux s.data []).map (fun cs => ⟨cs⟩)

/-- Join path components with slash characters. -/
def joinSlash : List String → List Char
  | [] => []
  | [x] => x.data
  | x :: rest => x.data ++ '/' :: joinSlash rest

/-- One step of relative-path cleaning: push a component, letting a dot-dot
component cancel the preceding ordinary component. -/
def cleanStep (stack : List String) (c : String) : List String :=
  if c = ".." then
    match stack with
    | [] => [".."]
    | top :: rest => if top = ".." then c :: stack else rest
  else c :: stack

/-- Modelled from the spec and the Go standard library: `filepath.Clean` on
a relative slash-separated path — drop empty and dot components, cancel
dot-dot against a preceding component, and return a dot for an emptied
path. -/
def pathClean (s : String) : String :=
  let comps := (splitSlash s).filter (fun c => !(c == "" || c == "."))
  let out := (comps.foldl cleanStep []).reverse
  if out.isEmpty then "." else ⟨joinSlash out⟩

/-- Modelled from the spec and the Go standard library: `filepath.Join` of
two elements — join the non-empty elements with a slash, then clean. -/
def filepathJoin (a b : String) : String :=
  if a == "" && b == "" then ""
  else if a == "" then pathClean b
  else if b == "" then pathClean a
  else pathClean ⟨a.data ++ '/' :: b.data⟩

mutual
/-- `ProgramDirectory` (program.go line 170). -/
inductive ProgramDirectory : Type where
  | mk (path : String) (entries : List ProgramFileOrDirectory)

/-- `ProgramFileOrDirectory` (program.go line 175): of its two Go pointer
fields exactly one is set wherever the code constructs it, so it is
modelled as a sum; a file entry carries `FileName` and `Content`. -/
inductive ProgramFileOrDirectory : Type where
  | file (fileName : String) (content : String)
  | directory (d : ProgramDirectory)
end

/-- The `Path` of a program directory. -/
def ProgramDirectory.path : ProgramDirectory → String
  | .mk p _ => p

/-- The `Entries` of a program directory. -/
def ProgramDirectory.entries : ProgramDirectory → List ProgramFileOrDirectory
  | .mk _ es => es

mutual
/-- `SourceFiles` (program.go line 190): the program's own files first, then
one subdirectory entry per component node, rooted at the join of the base
directory and the component's source directory. -/
def SourceFiles (p : ProgramT) (directory : String) : ProgramDirectory :=
  match p with
  | .mk nodes files _ =>
    ProgramDirectory.mk directory
      (files.map (fun f => ProgramFileOrDirectory.file f.name f.content) ++
        sourceFilesNodes nodes directory)

/-- The node loop of `SourceFiles` (program.go lines 201-209). -/
def sourceFilesNodes (nodes : List NodeT) (directory : String) :
    List ProgramFileOrDirectory :=
  match nodes with
  | [] => []
  | NodeT.component _ src prog :: rest =>
    ProgramFileOrDirectory.directory (SourceFiles prog (filepathJoin directory src)) ::
      sourceFilesNodes rest directory
  | _ :: rest => sourceFilesNodes rest directory
end

mutual
/-- `collectComponentsRecursive` instrumented with the list of directory
keys whose nested program the walk descends into, in descent order; used to
state that each distinct component is searched exactly once. -/
def collectTracedProgram (p : ProgramT) (components : List (String × NodeT))
    (trace : List String) : List (String × NodeT) × List String :=
  match p with
  | .mk nodes _ _ => collectTracedNodes nodes components trace

/-- The node loop of `collectTracedProgram`. -/
def collectTracedNodes (nodes : List NodeT) (components : List (String × NodeT))
    (trace : List String) : List (String × NodeT) × List String :=
  match nodes with
  | [] => (components, trace)
  | n :: rest =>
    match n with
    | NodeT.component _ src prog =>
      if (mapLookup src components).isSome then
        collectTracedNodes rest components trace
      else
        let r := collectTracedProgram prog (components ++ [(src, n)]) (trace ++ [src])
        collectTracedNodes rest r.1 r.2
    | _ => collectTracedNodes rest components trace
end

/-- Whether a node is a component. -/
def NodeT.isComponent : NodeT → Bool
  | .configVariable _ => false
  | .localVariable _ => false
  | .resource _ => false
  | .component _ _ _ => true
  | .outputVariable _ => false

theorem collectComponentsRecursive_mk (nodes : List NodeT) (files : List SyntaxFile)
    (refs : List (String × PackageReference)) (acc : List (String × NodeT)) :
    collectComponentsRecursive (ProgramT.mk nodes files refs) acc =
      collectComponentsNodes nodes acc := by
  rw [collectComponentsRecursive]

theorem collectComponentsNodes_nil (acc : List (String × NodeT)) :
    collectComponentsNodes [] acc = acc := by
  rw [collectComponentsNodes]

theorem collectComponentsNodes_component (nm src : String) (prog : ProgramT)
    (rest : List NodeT) (acc : List (String × NodeT)) :
    collectComponentsNodes (NodeT.component nm src prog :: rest) acc =
      if (mapLookup src acc).isSome then collectComponentsNodes rest acc
      else collectComponentsNodes rest
        (collectComponentsRecursive prog (acc ++ [(src, NodeT.component nm src prog)])) := by
  rw [collectComponentsNodes]

theorem collectComponentsNodes_other (n : NodeT) (rest : List NodeT)
    (acc : List (String × NodeT)) (hn : n.isComponent = false) :
    collectComponentsNodes (n :: rest) acc = collectComponentsNodes rest acc := by
  cases n
  case component nm src prog => simp [NodeT.isComponent] at hn
  all_goals
    rw [collectComponentsNodes]
    intro a b c hc
    exact NodeT.noConfusion hc

mutual
/-- Any entry of the component accumulator after a walk was either already
present or is a component whose nested program is structurally smaller than
the walked program. -/
theorem mem_collectComponentsRecursive_size (p : ProgramT)
    (acc : List (String × NodeT)) (x : String × NodeT)
    (h : x ∈ collectComponentsRecursive p acc) :
    x ∈ acc ∨ sizeOf (nodeProgram x.2) < sizeOf p := by
  match p with
  | .mk nodes files refs =>
    rw [collectComponentsRecursive_mk] at h
    rcases mem_collectComponentsNodes_size nodes acc x h with h' | h'
    · exact Or.inl h'
    · right
      have hlt : sizeOf nodes < sizeOf (ProgramT.mk nodes files refs) := by
        simp only [ProgramT.mk.sizeOf_spec]
        omega
      omega

/-- List version of `mem_collectComponentsRecursive_size`. -/
theorem mem_collectComponentsNodes_size (nodes : List NodeT)
    (acc : List (String × NodeT)) (x : String × NodeT)
    (h : x ∈ collectComponentsNodes nodes acc) :
    x ∈ acc ∨ sizeOf (nodeProgram x.2) < sizeOf nodes := by
  match nodes with
  | [] =>
    rw [collectComponentsNodes_nil] at h
    exact Or.inl h
  | n :: rest =>
    have hrest : sizeOf rest < sizeOf (n :: rest) := by
      simp only [List.cons.sizeOf_spec]
      omega
    match n with
    | NodeT.component nm src prog =>
      rw [collectComponentsNodes_component] at h
      have hprog : sizeOf prog < sizeOf (NodeT.component nm src prog :: rest) := by
        simp only [List.cons.sizeOf_spec, NodeT.component.sizeOf_spec]
        omega
      by_cases hseen : (mapLookup src acc).isSome
      · rw [if_pos hseen] at h
        rcases mem_collectComponentsNodes_size rest acc x h with h' | h'
        · exact Or.inl h'
        · right; omega
      · rw [if_neg hseen] at h
        rcases mem_collectComponentsNodes_size rest
            (collectComponentsRecursive prog (acc ++ [(src, NodeT.component nm src prog)])) x h with
          h' | h'
        · rcases mem_collectComponentsRecursive_size prog
              (acc ++ [(src, NodeT.component nm src prog)]) x h' with h'' | h''
          · rcases List.mem_append.mp h'' with ha | hx
            · exact Or.inl ha
            · right
              have hx' : x = (src, NodeT.component nm src prog) := by
                simpa using hx
              subst hx'
              simp only [nodeProgram]
              omega
          · right; omega
        · right; omega
    | NodeT.configVariable nm =>
      rw [collectComponentsNodes_other (NodeT.configVariable nm) rest acc rfl] at h
      rcases mem_collectComponentsNodes_size rest acc x h with h' | h'
      · exact Or.inl h'
      · right; omega
    | NodeT.localVariable nm =>
      rw [collectComponentsNodes_other (NodeT.localVariable nm) rest acc rfl] at h
      rcases mem_collectComponentsNodes_size rest acc x h with h' | h'
      · exact Or.inl h'
      · right; omega
    | NodeT.resource nm =>
      rw [collectComponentsNodes_other (NodeT.resource nm) rest acc rfl] at h
      rcases mem_collectComponentsNodes_size rest acc x h with h' | h'
      · exact Or.inl h'
      · right; omega
    | NodeT.outputVariable nm =>
      rw [collectComponentsNodes_other (NodeT.outputVariable nm) rest acc rfl] at h
      rcases mem_collectComponentsNodes_size rest acc x h with h' | h'
      · exact Or.inl h'
      · right; omega
end

/-- The first-wins merge step of `collectPackageSnapshots` (program.go lines
245-249): a package whose name is already a key is dropped. -/
def insertFirstWins (seen : List (String × SchemaPackage)) (pkg : SchemaPackage) :
    List (String × SchemaPackage) :=
  if (mapLookup pkg.name seen).isSome then seen else seen ++ [(pkg.name, pkg)]

/-- `collectPackageSnapshots` (program.go line 239): merge this program's
`PackageSnapshots` into the accumulator first-wins by package name, then
recurse into each collected component's program. Go iterates its component
map in unspecified order; the model iterates the accumulator in insertion
order. -/
def collectPackageSnapshots (p : ProgramT)
    (seenPackages : List (String × SchemaPackage)) :
    Except String (List (String × SchemaPackage)) :=
  match PackageSnapshots p with
  | .error e => .error e
  | .ok packages =>
    (CollectComponents p).attach.foldlM
      (fun s c => collectPackageSnapshots (nodeProgram c.val.2) s)
      (packages.foldl insertFirstWins seenPackages)
termination_by sizeOf p
decreasing_by
  rcases mem_collectComponentsRecursive_size p [] c.val c.property with h | h
  · exact absurd h (List.not_mem_nil _)
  · exact h

/-- `CollectNestedPackageSnapshots` (program.go line 261). -/
def CollectNestedPackageSnapshots (p : ProgramT) :
    Except String (List (String × SchemaPackage)) :=
  collectPackageSnapshots p []

theorem mapLookup_eq_none_iff {α : Type} (k : String) (l : List (String × α)) :
    mapLookup k l = none ↔ k ∉ l.map Prod.fst := by
  induction l with
  | nil => simp [mapLookup]
  | cons x rest ih =>
    obtain ⟨key, v⟩ := x
    by_cases hk : k = key
    · subst hk; simp [mapLookup]
    · simp [mapLookup, hk, ih]

theorem mapLookup_isSome_iff {α : Type} (k : String) (l : List (String × α)) :
    (mapLookup k l).isSome = true ↔ k ∈ l.map Prod.fst := by
  have h := mapLookup_eq_none_iff k l
  cases hm : mapLookup k l with
  | none =>
    rw [hm] at h
    simp [h.mp rfl]
  | some v =>
    have hne : mapLookup k l ≠ none := by rw [hm]; simp
    rw [Ne, h, not_not] at hne
    simp [hne]


theorem isComponent_eq {n : NodeT} (h : n.isComponent = true) :
    ∃ nm src prog, n = NodeT.component nm src prog := by
  cases n <;> simp [NodeT.isComponent] at h ⊢

theorem collectTracedProgram_mk (nodes : List NodeT) (files : List SyntaxFile)
    (refs : List (String × PackageReference)) (acc : List (String × NodeT))
    (tr : List String) :
    collectTracedProgram (ProgramT.mk nodes files refs) acc tr =
      collectTracedNodes nodes acc tr := by
  rw [collectTracedProgram]

theorem collectTracedNodes_nil (acc : List (String × NodeT)) (tr : List String) :
    collectTracedNodes [] acc tr = (acc, tr) := by
  rw [collectTracedNodes]

theorem collectTracedNodes_component (nm src : String) (prog : ProgramT)
    (rest : List NodeT) (acc : List (String × NodeT)) (tr : List String) :
    collectTracedNodes (NodeT.component nm src prog :: rest) acc tr =
      if (mapLookup src acc).isSome then collectTracedNodes rest acc tr
      else
        collectTracedNodes rest
          (collectTracedProgram prog (acc ++ [(src, NodeT.component nm src prog)])
            (tr ++ [src])).1
          (collectTracedProgram prog (acc ++ [(src, NodeT.component nm src prog)])
            (tr ++ [src])).2 := by
  rw [collectTracedNodes]

theorem collectTracedNodes_other (n : NodeT) (rest : List NodeT)
    (acc : List (String × NodeT)) (tr : List String) (hn : n.isComponent = false) :
    collectTracedNodes (n :: rest) acc tr = collectTracedNodes rest acc tr := by
  cases n
  case component nm src prog => simp [NodeT.isComponent] at hn
  all_goals
    rw [collectTracedNodes]
    intro a b c hc
    exact NodeT.noConfusion hc

mutual
/-- The accumulator of the traced walk agrees with the untraced walk. -/
theorem collectTracedProgram_fst (p : ProgramT) (acc : List (String × NodeT))
    (tr : List String) :
    (collectTracedProgram p acc tr).1 = collectComponentsRecursive p acc := by
  match p with
  | .mk nodes files refs =>
    rw [collectTracedProgram_mk, collectComponentsRecursive_mk]
    exact collectTracedNodes_fst nodes acc tr

/-- List version of `collectTracedProgram_fst`. -/
theorem collectTracedNodes_fst (nodes : List NodeT) (acc : List (String × NodeT))
    (tr : List String) :
    (collectTracedNodes nodes acc tr).1 = collectComponentsNodes nodes acc := by
  match nodes with
  | [] => rw [collectTracedNodes_nil, collectComponentsNodes_nil]
  | n :: rest =>
    by_cases hc : n.isComponent = true
    · obtain ⟨nm, src, prog, rfl⟩ := isComponent_eq hc
      rw [collectTracedNodes_component, collectComponentsNodes_component]
      by_cases hseen : (mapLookup src acc).isSome
      · rw [if_pos hseen, if_pos hseen]
        exact collectTracedNodes_fst rest acc tr
      · rw [if_neg hseen, if_neg hseen]
        rw [collectTracedNodes_fst rest _ _, collectTracedProgram_fst prog _ _]
    · have hc' : n.isComponent = false := by revert hc; cases n.isComponent <;> simp
      rw [collectTracedNodes_other n rest acc tr hc',
        collectComponentsNodes_other n rest acc hc']
      exact collectTracedNodes_fst rest acc tr
end

mutual
/-- The traced walk only appends: the accumulator grows by some list of new
entries and the trace grows by exactly the keys of those new entries in
order. -/
theorem collectTracedProgram_delta (p : ProgramT) (acc : List (String × NodeT))
    (tr : List String) :
    ∃ added, collectTracedProgram p acc tr =
      (acc ++ added, tr ++ added.map Prod.fst) := by
  match p with
  | .mk nodes files refs =>
    rw [collectTracedProgram_mk]
    exact collectTracedNodes_delta nodes acc tr

/-- List version of `collectTracedProgram_delta`. -/
theorem collectTracedNodes_delta (nodes : List NodeT) (acc : List (String × NodeT))
    (tr : List String) :
    ∃ added, collectTracedNodes nodes acc tr =
      (acc ++ added, tr ++ added.map Prod.fst) := by
  match nodes with
  | [] =>
    refine ⟨[], ?_⟩
    rw [collectTracedNodes_nil]
    simp
  | n :: rest =>
    by_cases hc : n.isComponent = true
    · obtain ⟨nm, src, prog, rfl⟩ := isComponent_eq hc
      rw [collectTracedNodes_component]
      by_cases hseen : (mapLookup src acc).isSome
      · rw [if_pos hseen]
        exact collectTracedNodes_delta rest acc tr
      · rw [if_neg hseen]
        obtain ⟨a1, h1⟩ := collectTracedProgram_delta prog
          (acc ++ [(src, NodeT.component nm src prog)]) (tr ++ [src])
        rw [h1]
        obtain ⟨a2, h2⟩ := collectTracedNodes_delta rest
          (acc ++ [(src, NodeT.component nm src prog)] ++ a1)
          (tr ++ [src] ++ a1.map Prod.fst)
        rw [h2]
        refine ⟨(src, NodeT.component nm src prog) :: (a1 ++ a2), ?_⟩
        simp
    · have hc' : n.isComponent = false := by revert hc; cases n.isComponent <;> simp
      rw [collectTracedNodes_other n rest acc tr hc']
      exact collectTracedNodes_delta rest acc tr
end

mutual
/-- The component walk preserves distinctness of the accumulator's keys. -/
theorem nodup_collectComponentsRecursive (p : ProgramT)
    (acc : List (String × NodeT)) (h : (acc.map Prod.fst).Nodup) :
    (((collectComponentsRecursive p acc).map Prod.fst)).Nodup := by
  match p with
  | .mk nodes files refs =>
    rw [collectComponentsRecursive_mk]
    exact nodup_collectComponentsNodes nodes acc h

/-- List version of `nodup_collectComponentsRecursive`. -/
theorem nodup_collectComponentsNodes (nodes : List NodeT)
    (acc : List (String × NodeT)) (h : (acc.map Prod.fst).Nodup) :
    (((collectComponentsNodes nodes acc).map Prod.fst)).Nodup := by
  match nodes with
  | [] =>
    rw [collectComponentsNodes_nil]
    exact h
  | n :: rest =>
    by_cases hc : n.isComponent = true
    · obtain ⟨nm, src, prog, rfl⟩ := isComponent_eq hc
      rw [collectComponentsNodes_component]
      by_cases hseen : (mapLookup src acc).isSome
      · rw [if_pos hseen]
        exact nodup_collectComponentsNodes rest acc h
      · rw [if_neg hseen]
        have hsrc : src ∉ acc.map Prod.fst := by
          intro hmem
          exact hseen ((mapLookup_isSome_iff src acc).mpr hmem)
        have hnd : ((acc ++ [(src, NodeT.component nm src prog)]).map Prod.fst).Nodup := by
          rw [List.map_append]
          refine List.Nodup.append h (List.nodup_singleton _) ?_
          intro a ha hb
          rw [List.map_singleton, List.mem_singleton] at hb
          subst hb
          exact hsrc ha
        exact nodup_collectComponentsNodes rest _
          (nodup_collectComponentsRecursive prog _ hnd)
    · have hc' : n.isComponent = false := by revert hc; cases n.isComponent <;> simp
      rw [collectComponentsNodes_other n rest acc hc']
      exact nodup_collectComponentsNodes rest acc h
end

mutual
/-- Any entry the component walk adds is keyed by its component's directory
path. -/
theorem mem_collectComponentsRecursive_dirPath (p : ProgramT)
    (acc : List (String × NodeT)) (x : String × NodeT)
    (h : x ∈ collectComponentsRecursive p acc) :
    x ∈ acc ∨ (x.2).dirPath = some x.1 := by
  match p with
  | .mk nodes files refs =>
    rw [collectComponentsRecursive_mk] at h
    exact mem_collectComponentsNodes_dirPath nodes acc x h

/-- List version of `mem_collectComponentsRecursive_dirPath`. -/
theorem mem_collectComponentsNodes_dirPath (nodes : List NodeT)
    (acc : List (String × NodeT)) (x : String × NodeT)
    (h : x ∈ collectComponentsNodes nodes acc) :
    x ∈ acc ∨ (x.2).dirPath = some x.1 := by
  match nodes with
  | [] =>
    rw [collectComponentsNodes_nil] at h
    exact Or.inl h
  | n :: rest =>
    by_cases hc : n.isComponent = true
    · obtain ⟨nm, src, prog, rfl⟩ := isComponent_eq hc
      rw [collectComponentsNodes_component] at h
      by_cases hseen : (mapLookup src acc).isSome
      · rw [if_pos hseen] at h
        exact mem_collectComponentsNodes_dirPath rest acc x h
      · rw [if_neg hseen] at h
        rcases mem_collectComponentsNodes_dirPath rest _ x h with h' | h'
        · rcases mem_collectComponentsRecursive_dirPath prog _ x h' with h'' | h''
          · rcases List.mem_append.mp h'' with ha | hx
            · exact Or.inl ha
            · right
              have hx' : x = (src, NodeT.component nm src prog) := by simpa using hx
              subst hx'
              rfl
          · exact Or.inr h''
        · exact Or.inr h'
    · have hc' : n.isComponent = false := by revert hc; cases n.isComponent <;> simp
      rw [collectComponentsNodes_other n rest acc hc'] at h
      exact mem_collectComponentsNodes_dirPath rest acc x h
end


/-- The loop of `ConfigVariables` (program.go lines 270-275). -/
def configVariablesLoop : List NodeT → List NodeT
  | [] => []
  | NodeT.configVariable nm :: rest => NodeT.configVariable nm :: configVariablesLoop rest
  | NodeT.localVariable _ :: rest => configVariablesLoop rest
  | NodeT.resource _ :: rest => configVariablesLoop rest
  | NodeT.component _ _ _ :: rest => configVariablesLoop rest
  | NodeT.outputVariable _ :: rest => configVariablesLoop rest

/-- `ConfigVariables` (program.go line 268): the config variable nodes of
the program, in declaration order. -/
def ConfigVariables (p : ProgramT) : List NodeT := configVariablesLoop p.nodes

/-- The loop of `OutputVariables` (program.go lines 283-288). -/
def outputVariablesLoop : List NodeT → List NodeT
  | [] => []
  | NodeT.configVariable _ :: rest => outputVariablesLoop rest
  | NodeT.localVariable _ :: rest => outputVariablesLoop rest
  | NodeT.resource _ :: rest => outputVariablesLoop rest
  | NodeT.component _ _ _ :: rest => outputVariablesLoop rest
  | NodeT.outputVariable nm :: rest => NodeT.outputVariable nm :: outputVariablesLoop rest

/-- `OutputVariables` (program.go line 281): the output variable nodes of
the program, in declaration order. -/
def OutputVariables (p : ProgramT) : List NodeT := outputVariablesLoop p.nodes

/-- Whether a node is a config variable. -/
def NodeT.isConfigVariable : NodeT → Bool
  | .configVariable _ => true
  | .localVariable _ => false
  | .resource _ => false
  | .component _ _ _ => false
  | .outputVariable _ => false

/-- Whether a node is an output variable. -/
def NodeT.isOutputVariable : NodeT → Bool
  | .configVariable _ => false
  | .localVariable _ => false
  | .resource _ => false
  | .component _ _ _ => false
  | .outputVariable _ => true

/-- The package a snapshot resolution produced, defaulting on error. -/
def resolveSnapshotD (ref : PackageReference) : SchemaPackage :=
  match resolveSnapshot ref with
  | .ok pkg => pkg
  | .error _ => ⟨"", 0⟩

/-- The package a definition resolution produced, defaulting on error. -/
def refDefinitionD (ref : PackageReference) : SchemaPackage :=
  match refDefinition ref with
  | .ok pkg => pkg
  | .error _ => ⟨"", 0⟩


theorem char_eq_of_toNat_eq {a b : Char} (h : a.toNat = b.toNat) : a = b :=
  Char.ofNat_toNat a ▸ Char.ofNat_toNat b ▸ congrArg Char.ofNat h

theorem charListLe_total (a b : List Char) :
    charListLe a b = true ∨ charListLe b a = true := by
  induction a generalizing b with
  | nil => left; rw [charListLe]
  | cons x xs ih =>
    cases b with
    | nil => right; rw [charListLe]
    | cons y ys =>
      rw [charListLe, charListLe]
      by_cases h1 : x.toNat < y.toNat
      · left; simp [h1]
      · by_cases h2 : y.toNat < x.toNat
        · right; simp [h2]
        · simpa [h1, h2] using ih ys

theorem charListLe_trans {a b c : List Char} (h1 : charListLe a b = true)
    (h2 : charListLe b c = true) : charListLe a c = true := by
  induction a generalizing b c with
  | nil => rw [charListLe]
  | cons x xs ih =>
    cases b with
    | nil => rw [charListLe] at h1; cases h1
    | cons y ys =>
      cases c with
      | nil => rw [charListLe] at h2; cases h2
      | cons z zs =>
        rw [charListLe] at h1 h2 ⊢
        by_cases hxy : x.toNat < y.toNat
        · by_cases hyz : y.toNat < z.toNat
          · simp [show x.toNat < z.toNat by omega]
          · by_cases hzy : z.toNat < y.toNat
            · simp [hyz, hzy] at h2
            · simp [show x.toNat < z.toNat by omega]
        · by_cases hyx : y.toNat < x.toNat
          · simp [hxy, hyx] at h1
          · simp [hxy, hyx] at h1
            by_cases hyz : y.toNat < z.toNat
            · simp [show x.toNat < z.toNat by omega]
            · by_cases hzy : z.toNat < y.toNat
              · simp [hyz, hzy] at h2
              · simp [hyz, hzy] at h2
                simp [show ¬ x.toNat < z.toNat by omega,
                  show ¬ z.toNat < x.toNat by omega]
                exact ih h1 h2

theorem charListLe_antisymm {a b : List Char} (h1 : charListLe a b = true)
    (h2 : charListLe b a = true) : a = b := by
  induction a generalizing b with
  | nil =>
    cases b with
    | nil => rfl
    | cons y ys => rw [charListLe] at h2; cases h2
  | cons x xs ih =>
    cases b with
    | nil => rw [charListLe] at h1; cases h1
    | cons y ys =>
      rw [charListLe] at h1 h2
      by_cases hxy : x.toNat < y.toNat
      · simp [show ¬ y.toNat < x.toNat by omega, hxy] at h2
      · by_cases hyx : y.toNat < x.toNat
        · simp [hxy, hyx] at h1
        · simp [hxy, hyx] at h1
          simp [show ¬ y.toNat < x.toNat by omega,
            show ¬ x.toNat < y.toNat by omega] at h2
          have hx : x = y := char_eq_of_toNat_eq (by omega)
          rw [hx, ih h1 h2]

instance : IsTotal String strLeP :=
  ⟨fun a b => charListLe_total a.data b.data⟩

instance : IsTrans String strLeP :=
  ⟨fun _ _ _ h1 h2 => charListLe_trans h1 h2⟩

instance : IsAntisymm String strLeP :=
  ⟨fun _ _ h1 h2 => String.ext (charListLe_antisymm h1 h2)⟩

theorem sorted_sortStrings (l : List String) :
    List.Sorted strLeP (sortStrings l) :=
  List.sorted_insertionSort strLeP l

theorem perm_sortStrings (l : List String) : (sortStrings l).Perm l :=
  List.perm_insertionSort strLeP l

/-- Two lists with the same elements sort to the same list. -/
theorem sortStrings_eq_of_perm {l₁ l₂ : List String} (h : l₁.Perm l₂) :
    sortStrings l₁ = sortStrings l₂ :=
  List.eq_of_perm_of_sorted
    (((perm_sortStrings l₁).trans h).trans (perm_sortStrings l₂).symm)
    (sorted_sortStrings l₁) (sorted_sortStrings l₂)

/-- Lookup in an association list with no duplicate keys is invariant under
permutation. -/
theorem mapLookup_perm {α : Type} {l₁ l₂ : List (String × α)} (h : l₁.Perm l₂)
    (hnd : (l₁.map Prod.fst).Nodup) (k : String) :
    mapLookup k l₁ = mapLookup k l₂ := by
  induction h with
  | nil => rfl
  | cons x hperm ih =>
    obtain ⟨key, v⟩ := x
    simp only [List.map_cons, List.nodup_cons] at hnd
    by_cases hk : k = key
    · subst hk; simp [mapLookup]
    · simp only [mapLookup, if_neg hk]
      exact ih hnd.2
  | swap x y l =>
    obtain ⟨kx, vx⟩ := x
    obtain ⟨ky, vy⟩ := y
    simp only [List.map_cons, List.nodup_cons, List.mem_cons] at hnd
    have hne : ky ≠ kx := fun hh => hnd.1 (Or.inl hh)
    by_cases h1 : k = ky
    · subst h1
      simp [mapLookup, hne]
    · by_cases h2 : k = kx
      · subst h2
        simp [mapLookup, h1, fun hh : k = ky => h1 hh]
      · simp [mapLookup, h1, h2]
  | trans h12 h23 ih12 ih23 =>
    have hnd2 : (_ : List String).Nodup := ((h12.map Prod.fst).nodup_iff).mp hnd
    exact (ih12 hnd).trans (ih23 hnd2)


theorem exceptBind_ok {α β : Type} (a : α) (f : α → Except String β) :
    (Except.ok a >>= f) = f a := rfl

theorem foldlM_attach_val {α β : Type} (l : List α)
    (g : β → α → Except String β) (init : β) :
    l.attach.foldlM (fun s c => g s c.val) init = l.foldlM g init := by
  have h := List.foldlM_map (Subtype.val) g l.attach init
  rw [List.attach_map_subtype_val] at h
  exact h.symm

/-- One-step unfolding of `collectPackageSnapshots`. -/
theorem collectPackageSnapshots_eq (p : ProgramT)
    (seen : List (String × SchemaPackage)) :
    collectPackageSnapshots p seen =
      match PackageSnapshots p with
      | .error e => .error e
      | .ok packages =>
        (CollectComponents p).foldlM
          (fun s c => collectPackageSnapshots (nodeProgram c.2) s)
          (packages.foldl insertFirstWins seen) := by
  rw [collectPackageSnapshots]
  cases PackageSnapshots p with
  | error e => rfl
  | ok packages =>
    exact foldlM_attach_val (CollectComponents p)
      (fun s c => collectPackageSnapshots (nodeProgram c.2) s)
      (packages.foldl insertFirstWins seen)

/-- `collectPackageSnapshots` when this program's own snapshots fail. -/
theorem collectPackageSnapshots_error (p : ProgramT)
    (seen : List (String × SchemaPackage)) (e : String)
    (h : PackageSnapshots p = .error e) :
    collectPackageSnapshots p seen = .error e := by
  rw [collectPackageSnapshots_eq, h]

/-- `collectPackageSnapshots` when this program's own snapshots succeed. -/
theorem collectPackageSnapshots_ok (p : ProgramT)
    (seen : List (String × SchemaPackage)) (packages : List SchemaPackage)
    (h : PackageSnapshots p = .ok packages) :
    collectPackageSnapshots p seen =
      (CollectComponents p).foldlM
        (fun s c => collectPackageSnapshots (nodeProgram c.2) s)
        (packages.foldl insertFirstWins seen) := by
  rw [collectPackageSnapshots_eq, h]

/-- The accumulator invariant of `collectPackageSnapshots`: keys are
distinct and every entry is keyed by its package's name. -/
def snapshotAccInv (seen : List (String × SchemaPackage)) : Prop :=
  (seen.map Prod.fst).Nodup ∧ ∀ x ∈ seen, (x.2).name = x.1

theorem insertFirstWins_inv {seen : List (String × SchemaPackage)}
    (h : snapshotAccInv seen) (pkg : SchemaPackage) :
    snapshotAccInv (insertFirstWins seen pkg) := by
  rw [insertFirstWins]
  by_cases hx : (mapLookup pkg.name seen).isSome
  · rw [if_pos hx]
    exact h
  · rw [if_neg hx]
    have hnm : pkg.name ∉ seen.map Prod.fst := by
      intro hmem
      exact hx ((mapLookup_isSome_iff pkg.name seen).mpr hmem)
    constructor
    · rw [List.map_append]
      refine List.Nodup.append h.1 (List.nodup_singleton _) ?_
      intro a ha hb
      rw [List.map_singleton, List.mem_singleton] at hb
      subst hb
      exact hnm ha
    · intro x hx'
      rcases List.mem_append.mp hx' with ha | hb
      · exact h.2 x ha
      · have : x = (pkg.name, pkg) := by simpa using hb
        subst this
        rfl

theorem foldl_insertFirstWins_inv (packages : List SchemaPackage)
    {seen : List (String × SchemaPackage)} (h : snapshotAccInv seen) :
    snapshotAccInv (packages.foldl insertFirstWins seen) := by
  induction packages generalizing seen with
  | nil => exact h
  | cons pkg rest ih =>
    rw [List.foldl_cons]
    exact ih (insertFirstWins_inv h pkg)

/-- `collectPackageSnapshots` preserves the accumulator invariant. -/
theorem collectPackageSnapshots_inv (n : Nat) :
    ∀ (p : ProgramT) (seen out : List (String × SchemaPackage)),
      sizeOf p ≤ n → collectPackageSnapshots p seen = .ok out →
      snapshotAccInv seen → snapshotAccInv out := by
  induction n using Nat.strong_induction_on with
  | _ n ih =>
    intro p seen out hle heq hinv
    cases hps : PackageSnapshots p with
    | error e =>
      rw [collectPackageSnapshots_error p seen e hps] at heq
      cases heq
    | ok packages =>
      rw [collectPackageSnapshots_ok p seen packages hps] at heq
      have hmem : ∀ x ∈ CollectComponents p, sizeOf (nodeProgram x.2) < sizeOf p := by
        intro x hx
        rcases mem_collectComponentsRecursive_size p [] x hx with h' | h'
        · cases h'
        · exact h'
      have main : ∀ (comps : List (String × NodeT)),
          (∀ x ∈ comps, sizeOf (nodeProgram x.2) < sizeOf p) →
          ∀ (s out' : List (String × SchemaPackage)),
            comps.foldlM (fun s c => collectPackageSnapshots (nodeProgram c.2) s) s =
              .ok out' →
            snapshotAccInv s → snapshotAccInv out' := by
        intro comps
        induction comps with
        | nil =>
          intro _ s out' h hs
          rw [List.foldlM_nil] at h
          cases h
          exact hs
        | cons c cs ihc =>
          intro hb s out' h hs
          rw [List.foldlM_cons] at h
          cases hc : collectPackageSnapshots (nodeProgram c.2) s with
          | error e =>
            rw [hc] at h
            cases h
          | ok s' =>
            rw [hc] at h
            simp only [exceptBind_ok] at h
            have hsz : sizeOf (nodeProgram c.2) < sizeOf p := hb c (List.mem_cons_self c cs)
            have hs' : snapshotAccInv s' :=
              ih (sizeOf (nodeProgram c.2)) (by omega) (nodeProgram c.2) s s' le_rfl hc hs
            exact ihc (fun x hx => hb x (List.mem_cons_of_mem c hx)) s' out' h hs'
      exact main (CollectComponents p) hmem _ out heq
        (foldl_insertFirstWins_inv packages hinv)



theorem packageSnapshotsLoop_cons (refs : List (String × PackageReference))
    (k : String) (ks : List String) (values : List SchemaPackage) :
    packageSnapshotsLoop refs (k :: ks) values =
      match mapLookup k refs with
      | none => packageSnapshotsLoop refs ks values
      | some ref =>
        match resolveSnapshot ref with
        | .error e => .error ("defining package " ++ refName ref ++ ": " ++ e)
        | .ok pkg => packageSnapshotsLoop refs ks (values ++ [pkg]) := by
  rw [packageSnapshotsLoop]

theorem packageSnapshotsLoop_cons_none {refs : List (String × PackageReference)}
    {k : String} (ks : List String) (values : List SchemaPackage)
    (hl : mapLookup k refs = none) :
    packageSnapshotsLoop refs (k :: ks) values = packageSnapshotsLoop refs ks values := by
  simp [packageSnapshotsLoop_cons, hl]

theorem packageSnapshotsLoop_cons_err {refs : List (String × PackageReference)}
    {k : String} {ref : PackageReference} {e : String} (ks : List String)
    (values : List SchemaPackage) (hl : mapLookup k refs = some ref)
    (hr : resolveSnapshot ref = .error e) :
    packageSnapshotsLoop refs (k :: ks) values =
      .error ("defining package " ++ refName ref ++ ": " ++ e) := by
  simp [packageSnapshotsLoop_cons, hl, hr]

theorem packageSnapshotsLoop_cons_ok {refs : List (String × PackageReference)}
    {k : String} {ref : PackageReference} {pkg : SchemaPackage} (ks : List String)
    (values : List SchemaPackage) (hl : mapLookup k refs = some ref)
    (hr : resolveSnapshot ref = .ok pkg) :
    packageSnapshotsLoop refs (k :: ks) values =
      packageSnapshotsLoop refs ks (values ++ [pkg]) := by
  simp [packageSnapshotsLoop_cons, hl, hr]

/-- When every looked-up reference resolves, the loop returns the resolved
packages appended in key order. -/
theorem packageSnapshotsLoop_all_ok (refs : List (String × PackageReference)) :
    ∀ (keys : List String) (values : List SchemaPackage),
      (∀ k ∈ keys, ∀ ref, mapLookup k refs = some ref →
        (resolveSnapshot ref).isOk = true) →
      packageSnapshotsLoop refs keys values =
        .ok (values ++
          ((keys.filterMap (fun k => mapLookup k refs)).map resolveSnapshotD)) := by
  intro keys
  induction keys with
  | nil =>
    intro values h
    simp [packageSnapshotsLoop]
  | cons k ks ih =>
    intro values h
    cases hl : mapLookup k refs with
    | none =>
      rw [packageSnapshotsLoop_cons_none ks values hl]
      rw [ih values (fun k' hk' => h k' (List.mem_cons_of_mem k hk'))]
      simp [List.filterMap_cons, hl]
    | some ref =>
      have hok := h k (List.mem_cons_self k ks) ref hl
      cases hr : resolveSnapshot ref with
      | error e =>
        rw [hr] at hok
        cases hok
      | ok pkg =>
        rw [packageSnapshotsLoop_cons_ok ks values hl hr]
        rw [ih (values ++ [pkg]) (fun k' hk' => h k' (List.mem_cons_of_mem k hk'))]
        simp [List.filterMap_cons, hl, resolveSnapshotD, hr]

/-- An error out of the loop names a failing reference that was looked up
from one of the keys. -/
theorem packageSnapshotsLoop_error (refs : List (String × PackageReference)) :
    ∀ (keys : List String) (values : List SchemaPackage) (e : String),
      packageSnapshotsLoop refs keys values = .error e →
      ∃ k ref e', k ∈ keys ∧ mapLookup k refs = some ref ∧
        resolveSnapshot ref = .error e' ∧
        e = "defining package " ++ refName ref ++ ": " ++ e' := by
  intro keys
  induction keys with
  | nil =>
    intro values e h
    rw [packageSnapshotsLoop] at h
    cases h
  | cons k ks ih =>
    intro values e h
    cases hl : mapLookup k refs with
    | none =>
      rw [packageSnapshotsLoop_cons_none ks values hl] at h
      obtain ⟨k', ref, e', hk, hl', hr, he⟩ := ih values e h
      exact ⟨k', ref, e', List.mem_cons_of_mem k hk, hl', hr, he⟩
    | some ref =>
      cases hr : resolveSnapshot ref with
      | error e' =>
        rw [packageSnapshotsLoop_cons_err ks values hl hr] at h
        cases h
        exact ⟨k, ref, e', List.mem_cons_self k ks, hl, hr, rfl⟩
      | ok pkg =>
        rw [packageSnapshotsLoop_cons_ok ks values hl hr] at h
        obtain ⟨k', ref', e', hk, hl', hr', he⟩ := ih (values ++ [pkg]) e h
        exact ⟨k', ref', e', List.mem_cons_of_mem k hk, hl', hr', he⟩

/-- A failing reference among the keys makes the loop fail. -/
theorem packageSnapshotsLoop_error_exists (refs : List (String × PackageReference)) :
    ∀ (keys : List String) (values : List SchemaPackage) (k : String)
      (ref : PackageReference) (e' : String),
      k ∈ keys → mapLookup k refs = some ref → resolveSnapshot ref = .error e' →
      ∃ e, packageSnapshotsLoop refs keys values = .error e := by
  intro keys
  induction keys with
  | nil =>
    intro values k ref e' hk
    cases hk
  | cons k0 ks ih =>
    intro values k ref e' hk hl hr
    rcases List.mem_cons.mp hk with hk0 | hks
    · subst hk0
      exact ⟨_, packageSnapshotsLoop_cons_err ks values hl hr⟩
    · cases hl0 : mapLookup k0 refs with
      | none =>
        obtain ⟨e, he⟩ := ih values k ref e' hks hl hr
        exact ⟨e, by rw [packageSnapshotsLoop_cons_none ks values hl0]; exact he⟩
      | some ref0 =>
        cases hr0 : resolveSnapshot ref0 with
        | error e0 =>
          exact ⟨_, packageSnapshotsLoop_cons_err ks values hl0 hr0⟩
        | ok pkg0 =>
          obtain ⟨e, he⟩ := ih (values ++ [pkg0]) k ref e' hks hl hr
          exact ⟨e, by rw [packageSnapshotsLoop_cons_ok ks values hl0 hr0]; exact he⟩

theorem runOps_nil (r : node) : runOps r [] = r := rfl

theorem runOps_cons (r : node) (op : NodeOp) (ops : List NodeOp) :
    runOps r (op :: ops) = runOps (applyOp r op) ops := rfl

/-- After a call sequence, `bound` is set iff it was set before or the
sequence contains a `markBound` call. -/
theorem runOps_bound (ops : List NodeOp) :
    ∀ r : node, (runOps r ops).bound = (r.bound || ops.contains NodeOp.opMarkBound) := by
  induction ops with
  | nil => intro r; simp [runOps_nil]
  | cons op rest ih =>
    intro r
    rw [runOps_cons, ih]
    cases op <;>
      simp [applyOp, markBinding, markBound, List.contains_cons, Bool.or_assoc]

/-- After a call sequence, `binding` is set iff it was set before or the
sequence contains a `markBinding` call. -/
theorem runOps_binding (ops : List NodeOp) :
    ∀ r : node, (runOps r ops).binding = (r.binding || ops.contains NodeOp.opMarkBinding) := by
  induction ops with
  | nil => intro r; simp [runOps_nil]
  | cons op rest ih =>
    intro r
    rw [runOps_cons, ih]
    cases op <;>
      simp [applyOp, markBinding, markBound, List.contains_cons, Bool.or_assoc]

/-- A file entry of `SourceFiles` (program.go lines 193-198). -/
def fileEntry (f : SyntaxFile) : ProgramFileOrDirectory :=
  ProgramFileOrDirectory.file f.name f.content

/-- The subdirectory entry `SourceFiles` produces for a component node, and
`none` for every other node (program.go lines 201-209). -/
def componentEntry (directory : String) : NodeT → Option ProgramFileOrDirectory
  | NodeT.configVariable _ => none
  | NodeT.localVariable _ => none
  | NodeT.resource _ => none
  | NodeT.component _ src prog =>
    some (ProgramFileOrDirectory.directory (SourceFiles prog (filepathJoin directory src)))
  | NodeT.outputVariable _ => none

theorem SourceFiles_mk (nodes : List NodeT) (files : List SyntaxFile)
    (refs : List (String × PackageReference)) (directory : String) :
    SourceFiles (ProgramT.mk nodes files refs) directory =
      ProgramDirectory.mk directory
        ((files.map (fun f => ProgramFileOrDirectory.file f.name f.content)) ++
          sourceFilesNodes nodes directory) := by
  rw [SourceFiles]

theorem sourceFilesNodes_nil (directory : String) :
    sourceFilesNodes [] directory = [] := by
  rw [sourceFilesNodes]

theorem sourceFilesNodes_component (nm src : String) (prog : ProgramT)
    (rest : List NodeT) (directory : String) :
    sourceFilesNodes (NodeT.component nm src prog :: rest) directory =
      ProgramFileOrDirectory.directory (SourceFiles prog (filepathJoin directory src)) ::
        sourceFilesNodes rest directory := by
  rw [sourceFilesNodes]

theorem sourceFilesNodes_other (n : NodeT) (rest : List NodeT) (directory : String)
    (hn : n.isComponent = false) :
    sourceFilesNodes (n :: rest) directory = sourceFilesNodes rest directory := by
  cases n
  case component nm src prog => simp [NodeT.isComponent] at hn
  all_goals
    rw [sourceFilesNodes]
    intro a b c hc
    exact NodeT.noConfusion hc

/-- The node loop of `SourceFiles` is the order-preserving map of
`componentEntry` over the nodes. -/
theorem sourceFilesNodes_filterMap (nodes : List NodeT) (directory : String) :
    sourceFilesNodes nodes directory = nodes.filterMap (componentEntry directory) := by
  induction nodes with
  | nil => rw [sourceFilesNodes_nil, List.filterMap_nil]
  | cons n rest ih =>
    by_cases hc : n.isComponent = true
    · obtain ⟨nm, src, prog, rfl⟩ := isComponent_eq hc
      rw [sourceFilesNodes_component, ih]
      simp [List.filterMap_cons, componentEntry]
    · have hc' : n.isComponent = false := by revert hc; cases n.isComponent <;> simp
      rw [sourceFilesNodes_other n rest directory hc', ih]
      cases n <;> simp [List.filterMap_cons, componentEntry, NodeT.isComponent] at hc' ⊢

/-- `ConfigVariables`' loop is the order-preserving filter of the config
variable nodes. -/
theorem configVariablesLoop_filter (nodes : List NodeT) :
    configVariablesLoop nodes = nodes.filter NodeT.isConfigVariable := by
  induction nodes with
  | nil => rfl
  | cons n rest ih =>
    cases n <;>
      simp [configVariablesLoop, List.filter_cons, NodeT.isConfigVariable, ih]

/-- `OutputVariables`' loop is the order-preserving filter of the output
variable nodes. -/
theorem outputVariablesLoop_filter (nodes : List NodeT) :
    outputVariablesLoop nodes = nodes.filter NodeT.isOutputVariable := by
  induction nodes with
  | nil => rfl
  | cons n rest ih =>
    cases n <;>
      simp [outputVariablesLoop, List.filter_cons, NodeT.isOutputVariable, ih]



theorem contains_append_of_left (l1 l2 : List NodeOp) (a : NodeOp)
    (h : l1.contains a = true) : (l1 ++ l2).contains a = true := by
  induction l1 with
  | nil => cases h
  | cons x xs ih =>
    rw [List.cons_append, List.contains_cons]
    rw [List.contains_cons] at h
    rcases Bool.or_eq_true_iff.mp h with h1 | h2
    · rw [h1]
      rfl
    · rw [ih h2]
      simp

/-- C1: the node binding state is monotonic. `isBound` never falls back
from `true` under any call sequence; starting from a fresh node, `isBinding`
is `true` exactly when the sequence contains a `markBinding` call and no
`markBound` call; and once a sequence contains `markBound`, `isBinding`
stays `false` for every continuation of the sequence. -/
theorem C1_binding_state_monotonic :
    (∀ (r : node) (ops : List NodeOp), isBound r = true → isBound (runOps r ops) = true) ∧
    (∀ ops : List NodeOp, isBinding (runOps initNode ops) =
      (ops.contains NodeOp.opMarkBinding && !ops.contains NodeOp.opMarkBound)) ∧
    (∀ ops more : List NodeOp, ops.contains NodeOp.opMarkBound = true →
      isBinding (runOps initNode (ops ++ more)) = false) := by
  refine ⟨?_, ?_, ?_⟩
  · intro r ops h
    simp only [isBound] at h ⊢
    rw [runOps_bound ops r, h]
    rfl
  · intro ops
    simp only [isBinding]
    rw [runOps_binding ops initNode, runOps_bound ops initNode]
    rfl
  · intro ops more h
    simp only [isBinding]
    rw [runOps_bound (ops ++ more) initNode,
      contains_append_of_left ops more NodeOp.opMarkBound h]
    simp

/-- Witness for `C1_binding_state_monotonic` at concrete inputs. -/
theorem C1_binding_state_monotonic_witness :
    isBound (runOps (node.mk false true) [NodeOp.opMarkBinding]) = true ∧
    isBinding (runOps initNode
      ([NodeOp.opMarkBinding, NodeOp.opMarkBound] ++ [NodeOp.opMarkBinding])) = false := by
  constructor
  · exact C1_binding_state_monotonic.1 (node.mk false true) [NodeOp.opMarkBinding]
      (by decide)
  · exact C1_binding_state_monotonic.2.2 [NodeOp.opMarkBinding, NodeOp.opMarkBound]
      [NodeOp.opMarkBinding] (by decide)

/-- C10: the state machine does not force `Binding` before `Bound`: calling
`markBound` on a fresh node (no `markBinding` ever) yields `isBound = true`
with `isBinding = false`, and `markBound` unconditionally sets `bound`
without inspecting or rejecting anything. -/
theorem C10_markBound_skips_binding :
    isBound (runOps initNode [NodeOp.opMarkBound]) = true ∧
    isBinding (runOps initNode [NodeOp.opMarkBound]) = false ∧
    runOps initNode [NodeOp.opMarkBound] = node.mk false true ∧
    (∀ r : node, markBound r = node.mk r.binding true) :=
  ⟨rfl, rfl, rfl, fun _ => rfl⟩

/-- C8: `ConfigVariables` and `OutputVariables` are the order-preserving
filters of the program's node list down to config and output variable
nodes. -/
theorem C8_config_output_order_preserving_filters (p : ProgramT) :
    ConfigVariables p = p.nodes.filter NodeT.isConfigVariable ∧
    OutputVariables p = p.nodes.filter NodeT.isOutputVariable :=
  ⟨configVariablesLoop_filter p.nodes, outputVariablesLoop_filter p.nodes⟩

/-- The nested program of the C7 example: one file `nested.pp`. -/
def exNestedProgram : ProgramT := ProgramT.mk [] [⟨"nested.pp", "nested-content"⟩] []

/-- The C7 example program: one file `main.pp` and one component at
`./mymodule`. -/
def exC7Program : ProgramT :=
  ProgramT.mk [NodeT.component "comp" "./mymodule" exNestedProgram]
    [⟨"main.pp", "main-content"⟩] []

/-- C7: `SourceFiles` returns the base directory as the path, the program's
file entries in file order followed by one recursive subdirectory entry per
component in declaration order, each rooted at the join of the base
directory and the component's source directory; on the spec's example the
result is the expected concrete tree. -/
theorem C7_sourceFiles_tree (p : ProgramT) (d : String) :
    (SourceFiles p d).path = d ∧
    (SourceFiles p d).entries =
      p.files.map fileEntry ++ p.nodes.filterMap (componentEntry d) ∧
    SourceFiles exC7Program "out" =
      ProgramDirectory.mk "out"
        [ProgramFileOrDirectory.file "main.pp" "main-content",
          ProgramFileOrDirectory.directory (ProgramDirectory.mk "out/mymodule"
            [ProgramFileOrDirectory.file "nested.pp" "nested-content"])] := by
  refine ⟨?_, ?_, ?_⟩
  · cases p with
    | mk nodes files refs =>
      rw [SourceFiles_mk]
      rfl
  · cases p with
    | mk nodes files refs =>
      rw [SourceFiles_mk]
      show (files.map (fun f => ProgramFileOrDirectory.file f.name f.content)) ++
          sourceFilesNodes nodes d =
        files.map fileEntry ++ nodes.filterMap (componentEntry d)
      rw [sourceFilesNodes_filterMap]
      rfl
  · rfl



theorem packageSnapshotsLoop_congr {refs1 refs2 : List (String × PackageReference)}
    (h : ∀ k, mapLookup k refs1 = mapLookup k refs2) :
    ∀ (keys : List String) (values : List SchemaPackage),
      packageSnapshotsLoop refs1 keys values = packageSnapshotsLoop refs2 keys values := by
  intro keys
  induction keys with
  | nil =>
    intro values
    rw [packageSnapshotsLoop, packageSnapshotsLoop]
  | cons k ks ih =>
    intro values
    cases hl : mapLookup k refs1 with
    | none =>
      rw [packageSnapshotsLoop_cons_none ks values hl,
        packageSnapshotsLoop_cons_none ks values ((h k).symm.trans hl), ih]
    | some ref =>
      cases hr : resolveSnapshot ref with
      | error e =>
        rw [packageSnapshotsLoop_cons_err ks values hl hr,
          packageSnapshotsLoop_cons_err ks values ((h k).symm.trans hl) hr]
      | ok pkg =>
        rw [packageSnapshotsLoop_cons_ok ks values hl hr,
          packageSnapshotsLoop_cons_ok ks values ((h k).symm.trans hl) hr, ih]

theorem packagesLoop_cons (ref : PackageReference) (rest : List PackageReference)
    (defs : List SchemaPackage) :
    packagesLoop (ref :: rest) defs =
      match refDefinition ref with
      | .error e => .panicked ("loading package definition: " ++ e)
      | .ok d => packagesLoop rest (defs ++ [d]) := by
  rw [packagesLoop]

theorem packagesLoop_cons_err {ref : PackageReference} {e : String}
    (rest : List PackageReference) (defs : List SchemaPackage)
    (hr : refDefinition ref = .error e) :
    packagesLoop (ref :: rest) defs =
      .panicked ("loading package definition: " ++ e) := by
  simp [packagesLoop_cons, hr]

theorem packagesLoop_cons_ok {ref : PackageReference} {d : SchemaPackage}
    (rest : List PackageReference) (defs : List SchemaPackage)
    (hr : refDefinition ref = .ok d) :
    packagesLoop (ref :: rest) defs = packagesLoop rest (defs ++ [d]) := by
  simp [packagesLoop_cons, hr]

theorem packagesLoop_all_ok :
    ∀ (lrefs : List PackageReference) (defs : List SchemaPackage),
      (∀ ref ∈ lrefs, (refDefinition ref).isOk = true) →
      packagesLoop lrefs defs = .ok (defs ++ lrefs.map refDefinitionD) := by
  intro lrefs
  induction lrefs with
  | nil =>
    intro defs h
    simp [packagesLoop]
  | cons ref rest ih =>
    intro defs h
    have hok := h ref (List.mem_cons_self ref rest)
    cases hr : refDefinition ref with
    | error e =>
      rw [hr] at hok
      cases hok
    | ok d =>
      rw [packagesLoop_cons_ok rest defs hr]
      rw [ih (defs ++ [d]) (fun r hr' => h r (List.mem_cons_of_mem ref hr'))]
      simp [refDefinitionD, hr]

theorem packagesLoop_panicked :
    ∀ (lrefs : List PackageReference) (defs : List SchemaPackage) (m : String),
      packagesLoop lrefs defs = .panicked m →
      ∃ ref e, ref ∈ lrefs ∧ refDefinition ref = .error e ∧
        m = "loading package definition: " ++ e := by
  intro lrefs
  induction lrefs with
  | nil =>
    intro defs m h
    rw [packagesLoop] at h
    cases h
  | cons ref rest ih =>
    intro defs m h
    cases hr : refDefinition ref with
    | error e =>
      rw [packagesLoop_cons_err rest defs hr] at h
      cases h
      exact ⟨ref, e, List.mem_cons_self ref rest, hr, rfl⟩
    | ok d =>
      rw [packagesLoop_cons_ok rest defs hr] at h
      obtain ⟨ref', e, hmem, hr', hm⟩ := ih (defs ++ [d]) m h
      exact ⟨ref', e, List.mem_cons_of_mem ref hmem, hr', hm⟩

theorem packagesLoop_panicked_exists :
    ∀ (lrefs : List PackageReference) (defs : List SchemaPackage)
      (ref : PackageReference) (e : String),
      ref ∈ lrefs → refDefinition ref = .error e →
      ∃ m, packagesLoop lrefs defs = .panicked m := by
  intro lrefs
  induction lrefs with
  | nil =>
    intro defs ref e hmem
    cases hmem
  | cons ref0 rest ih =>
    intro defs ref e hmem hr
    rcases List.mem_cons.mp hmem with h0 | hrest
    · subst h0
      exact ⟨_, packagesLoop_cons_err rest defs hr⟩
    · cases hr0 : refDefinition ref0 with
      | error e0 =>
        exact ⟨_, packagesLoop_cons_err rest defs hr0⟩
      | ok d0 =>
        obtain ⟨m, hm⟩ := ih (defs ++ [d0]) ref e hrest hr
        exact ⟨m, by rw [packagesLoop_cons_ok rest defs hr0]; exact hm⟩



/-- The empty nested program of the C2 example. -/
def exEmptyProgram : ProgramT := ProgramT.mk [] [] []

/-- A nested program holding a further component at `./inner`; used to show
that a skipped duplicate component is not descended into. -/
def exC2SubProgram : ProgramT :=
  ProgramT.mk [NodeT.component "inner" "./inner" exEmptyProgram] [] []

/-- The C2 example program: two declarations referencing a component at
`./mymodule`; the second one nests a further component at `./inner`. -/
def exC2Program : ProgramT :=
  ProgramT.mk
    [NodeT.component "a" "./mymodule" exEmptyProgram,
      NodeT.component "b" "./mymodule" exC2SubProgram] [] []

/-- C2: `CollectComponents` deduplicates by directory key: the returned map
has pairwise distinct keys, each entry is a component keyed by its own
directory path, a component whose key is already present is neither added
nor descended into, and the walk descends into exactly the programs of the
entries it returns, once each (its descent trace equals the result's key
list); on the spec's example with two references to `./mymodule` the result
is the single first entry and the duplicate's nested program is not
searched. -/
theorem C2_collectComponents_dedup (p : ProgramT) :
    ((CollectComponents p).map Prod.fst).Nodup ∧
    (∀ x ∈ CollectComponents p, (x.2).dirPath = some x.1) ∧
    (∀ (nm src : String) (prog : ProgramT) (rest : List NodeT)
        (acc : List (String × NodeT)),
      (mapLookup src acc).isSome = true →
      collectComponentsNodes (NodeT.component nm src prog :: rest) acc =
        collectComponentsNodes rest acc) ∧
    (collectTracedProgram p [] []).2 = (CollectComponents p).map Prod.fst ∧
    CollectComponents exC2Program =
      [("./mymodule", NodeT.component "a" "./mymodule" exEmptyProgram)] := by
  refine ⟨?_, ?_, ?_, ?_, rfl⟩
  · exact nodup_collectComponentsRecursive p [] (by simp)
  · intro x hx
    rcases mem_collectComponentsRecursive_dirPath p [] x hx with h | h
    · cases h
    · exact h
  · intro nm src prog rest acc hseen
    rw [collectComponentsNodes_component, if_pos hseen]
  · obtain ⟨added, hadd⟩ := collectTracedProgram_delta p [] []
    have hfst := collectTracedProgram_fst p [] []
    rw [hadd] at hfst
    simp only [List.nil_append] at hadd hfst
    have hcc : CollectComponents p = added := by
      rw [CollectComponents, ← hfst]
    rw [hadd, hcc]

/-- Witness for `C2_collectComponents_dedup` at concrete inputs. -/
theorem C2_collectComponents_dedup_witness :
    collectComponentsNodes
        [NodeT.component "c" "./m" exEmptyProgram]
        [("./m", NodeT.component "z" "./m" exEmptyProgram)] =
      [("./m", NodeT.component "z" "./m" exEmptyProgram)] ∧
    (NodeT.component "a" "./mymodule" exEmptyProgram).dirPath = some "./mymodule" := by
  constructor
  · rw [(C2_collectComponents_dedup exEmptyProgram).2.2.1 "c" "./m" exEmptyProgram []
      [("./m", NodeT.component "z" "./m" exEmptyProgram)] (by rfl)]
    rw [collectComponentsNodes_nil]
  · exact (C2_collectComponents_dedup exC2Program).2.1
      ("./mymodule", NodeT.component "a" "./mymodule" exEmptyProgram)
      (List.mem_singleton.mpr rfl)

/-- The nested program of the C3 example, referencing `aws` version 2. -/
def exC3Child : ProgramT :=
  ProgramT.mk [] []
    [("aws", PackageReference.full "aws" (Except.ok (SchemaPackage.mk "aws" 2)))]

/-- The C3 example program: references `aws` version 1 itself and owns a
component whose program references `aws` version 2. -/
def exC3Parent : ProgramT :=
  ProgramT.mk [NodeT.component "comp" "./mymodule" exC3Child] []
    [("aws", PackageReference.full "aws" (Except.ok (SchemaPackage.mk "aws" 1)))]

/-- C3: `CollectNestedPackageSnapshots` returns at most one snapshot per
package name, each entry keyed by its package's name; the merge is
first-wins (a package whose name is already present is dropped, not
merged); and on the spec's example the parent's `aws` snapshot wins over
the nested component's differently-versioned one. -/
theorem C3_nested_snapshots_first_wins (p : ProgramT) :
    (∀ m, CollectNestedPackageSnapshots p = .ok m →
      (m.map Prod.fst).Nodup ∧ ∀ x ∈ m, (x.2).name = x.1) ∧
    (∀ (seen : List (String × SchemaPackage)) (pkg : SchemaPackage),
      (mapLookup pkg.name seen).isSome = true → insertFirstWins seen pkg = seen) ∧
    CollectNestedPackageSnapshots exC3Parent =
      .ok [("aws", SchemaPackage.mk "aws" 1)] := by
  refine ⟨?_, ?_, ?_⟩
  · intro m hm
    exact collectPackageSnapshots_inv (sizeOf p) p [] m le_rfl hm
      ⟨List.nodup_nil, by simp⟩
  · intro seen pkg h
    rw [insertFirstWins, if_pos h]
  · have hchild : collectPackageSnapshots exC3Child
        [("aws", SchemaPackage.mk "aws" 1)] =
        .ok [("aws", SchemaPackage.mk "aws" 1)] := by
      rw [collectPackageSnapshots_ok exC3Child _ [SchemaPackage.mk "aws" 2] rfl]
      rfl
    rw [CollectNestedPackageSnapshots]
    rw [collectPackageSnapshots_ok exC3Parent [] [SchemaPackage.mk "aws" 1] rfl]
    show (collectPackageSnapshots exC3Child [("aws", SchemaPackage.mk "aws" 1)] >>=
      fun s =>
        List.foldlM (fun s c => collectPackageSnapshots (nodeProgram c.2) s) s
          ([] : List (String × NodeT))) =
      Except.ok [("aws", SchemaPackage.mk "aws" 1)]
    rw [hchild]
    rfl

/-- Witness for `C3_nested_snapshots_first_wins` at concrete inputs. -/
theorem C3_nested_snapshots_first_wins_witness :
    insertFirstWins [("aws", SchemaPackage.mk "aws" 1)] (SchemaPackage.mk "aws" 2) =
      [("aws", SchemaPackage.mk "aws" 1)] :=
  (C3_nested_snapshots_first_wins exEmptyProgram).2.1
    [("aws", SchemaPackage.mk "aws" 1)] (SchemaPackage.mk "aws" 2) (by rfl)

/-- C4: `PackageSnapshots` is fail-fast: an error result names a failing
reference of the program, an error occurs exactly when some reference fails
to resolve, and a successful list is returned only when every reference
resolves (the `Except` result carries no partial list alongside an
error). -/
theorem C4_packageSnapshots_fail_fast (p : ProgramT) :
    (∀ e, PackageSnapshots p = .error e →
      ∃ ref e', ref ∈ PackageReferences p ∧ resolveSnapshot ref = .error e' ∧
        e = "defining package " ++ refName ref ++ ": " ++ e') ∧
    ((∃ e, PackageSnapshots p = .error e) ↔
      (∃ ref ∈ PackageReferences p, ∃ e', resolveSnapshot ref = .error e')) ∧
    (∀ l, PackageSnapshots p = .ok l →
      ∀ ref ∈ PackageReferences p, (resolveSnapshot ref).isOk = true) := by
  have herr : ∀ e, PackageSnapshots p = .error e →
      ∃ ref e', ref ∈ PackageReferences p ∧ resolveSnapshot ref = .error e' ∧
        e = "defining package " ++ refName ref ++ ": " ++ e' := by
    intro e he
    rw [PackageSnapshots] at he
    obtain ⟨k, ref, e', hk, hl, hr, hmsg⟩ :=
      packageSnapshotsLoop_error p.referencedPackages (sortedRefKeys p) [] e he
    refine ⟨ref, e', ?_, hr, hmsg⟩
    rw [PackageReferences]
    exact List.mem_filterMap.mpr ⟨k, hk, hl⟩
  have hexists : ∀ ref ∈ PackageReferences p, ∀ e', resolveSnapshot ref = .error e' →
      ∃ e, PackageSnapshots p = .error e := by
    intro ref hmem e' hr
    rw [PackageReferences] at hmem
    obtain ⟨k, hk, hl⟩ := List.mem_filterMap.mp hmem
    obtain ⟨e, he⟩ := packageSnapshotsLoop_error_exists p.referencedPackages
      (sortedRefKeys p) [] k ref e' hk hl hr
    exact ⟨e, by rw [PackageSnapshots]; exact he⟩
  refine ⟨herr, ⟨?_, ?_⟩, ?_⟩
  · intro ⟨e, he⟩
    obtain ⟨ref, e', hmem, hr, _⟩ := herr e he
    exact ⟨ref, hmem, e', hr⟩
  · intro ⟨ref, hmem, e', hr⟩
    exact hexists ref hmem e' hr
  · intro l hl ref hmem
    cases hr : resolveSnapshot ref with
    | error e' =>
      obtain ⟨e, he⟩ := hexists ref hmem e' hr
      rw [hl] at he
      cases he
    | ok pkg => rfl

/-- The C4 example program: a single partial package whose snapshot
fails. -/
def exC4Program : ProgramT :=
  ProgramT.mk [] []
    [("aws", PackageReference.partialPkg "aws" (Except.error "boom")
      (Except.ok (SchemaPackage.mk "aws" 1)))]

/-- Witness for `C4_packageSnapshots_fail_fast` at a concrete input. -/
theorem C4_packageSnapshots_fail_fast_witness :
    ∃ ref e', ref ∈ PackageReferences exC4Program ∧
      resolveSnapshot ref = .error e' ∧
      "defining package aws: boom" = "defining package " ++ refName ref ++ ": " ++ e' :=
  (C4_packageSnapshots_fail_fast exC4Program).1 "defining package aws: boom" rfl

/-- C5: on a program whose references all resolve, `PackageSnapshots`
returns exactly one element per reference, in the `PackageReferences`
order, each element being the resolution of its reference — the pruned
`Snapshot()` for a `PartialPackage` and the full `Definition()`
otherwise. -/
theorem C5_snapshots_elementwise (p : ProgramT)
    (h : ∀ ref ∈ PackageReferences p, (resolveSnapshot ref).isOk = true) :
    PackageSnapshots p = .ok ((PackageReferences p).map resolveSnapshotD) ∧
    (∀ nm s d, resolveSnapshot (PackageReference.partialPkg nm s d) = s) ∧
    (∀ nm d, resolveSnapshot (PackageReference.full nm d) = d) := by
  refine ⟨?_, fun nm s d => rfl, fun nm d => rfl⟩
  rw [PackageSnapshots]
  rw [packageSnapshotsLoop_all_ok p.referencedPackages (sortedRefKeys p) []
    (fun k hk ref hl => h ref (by
      rw [PackageReferences]
      exact List.mem_filterMap.mpr ⟨k, hk, hl⟩))]
  rw [List.nil_append, PackageReferences]

/-- The C5 example program: one full and one partial reference, both
resolving. -/
def exC5Program : ProgramT :=
  ProgramT.mk [] []
    [("zpkg", PackageReference.full "zpkg" (Except.ok (SchemaPackage.mk "zpkg" 3))),
      ("apkg", PackageReference.partialPkg "apkg"
        (Except.ok (SchemaPackage.mk "apkg" 4))
        (Except.ok (SchemaPackage.mk "apkg" 5)))]

/-- Witness for `C5_snapshots_elementwise` at a concrete input. -/
theorem C5_snapshots_elementwise_witness :
    PackageSnapshots exC5Program =
      .ok ((PackageReferences exC5Program).map resolveSnapshotD) := by
  refine (C5_snapshots_elementwise exC5Program ?_).1
  intro ref href
  have hrefs : PackageReferences exC5Program =
      [PackageReference.partialPkg "apkg" (Except.ok (SchemaPackage.mk "apkg" 4))
        (Except.ok (SchemaPackage.mk "apkg" 5)),
        PackageReference.full "zpkg" (Except.ok (SchemaPackage.mk "zpkg" 3))] := rfl
  rw [hrefs] at href
  rcases List.mem_cons.mp href with h1 | h2
  · subst h1; rfl
  · rcases List.mem_cons.mp h2 with h3 | h4
    · subst h3; rfl
    · cases h4

/-- C6: the key sequence both package accessors iterate is sorted ascending
by the lexicographic string order, and on programs whose reference maps are
permutations of each other (same references, different insertion order,
distinct keys) `PackageReferences` and `PackageSnapshots` return identical
lists. -/
theorem C6_sorted_insertion_order_independent :
    (∀ p : ProgramT, List.Sorted strLeP (sortedRefKeys p)) ∧
    (∀ p q : ProgramT,
      p.referencedPackages.Perm q.referencedPackages →
      (p.referencedPackages.map Prod.fst).Nodup →
      PackageReferences p = PackageReferences q ∧
      PackageSnapshots p = PackageSnapshots q) := by
  constructor
  · intro p
    exact sorted_sortStrings _
  · intro p q hperm hnd
    have hkeys : sortedRefKeys p = sortedRefKeys q := by
      rw [sortedRefKeys, sortedRefKeys]
      exact sortStrings_eq_of_perm (hperm.map Prod.fst)
    have hlook := mapLookup_perm hperm hnd
    constructor
    · rw [PackageReferences, PackageReferences, hkeys]
      simp only [hlook]
    · rw [PackageSnapshots, PackageSnapshots, hkeys]
      exact packageSnapshotsLoop_congr hlook (sortedRefKeys q) []

/-- The C6 example program, references inserted as `b` then `a`. -/
def exC6P : ProgramT :=
  ProgramT.mk [] []
    [("b", PackageReference.full "b" (Except.ok (SchemaPackage.mk "b" 1))),
      ("a", PackageReference.full "a" (Except.ok (SchemaPackage.mk "a" 2)))]

/-- The C6 example program, references inserted as `a` then `b`. -/
def exC6Q : ProgramT :=
  ProgramT.mk [] []
    [("a", PackageReference.full "a" (Except.ok (SchemaPackage.mk "a" 2))),
      ("b", PackageReference.full "b" (Except.ok (SchemaPackage.mk "b" 1)))]

/-- Witness for `C6_sorted_insertion_order_independent` at concrete
inputs. -/
theorem C6_sorted_insertion_order_independent_witness :
    PackageReferences exC6P = PackageReferences exC6Q ∧
    PackageSnapshots exC6P = PackageSnapshots exC6Q :=
  C6_sorted_insertion_order_independent.2 exC6P exC6Q
    (List.Perm.swap
      ("a", PackageReference.full "a" (Except.ok (SchemaPackage.mk "a" 2)))
      ("b", PackageReference.full "b" (Except.ok (SchemaPackage.mk "b" 1))) [])
    (by decide)

/-- C9: `Packages` has no error outcome: a panic message always wraps a
failing `Definition()` of one of the program's references, some failing
reference forces a panic, and when every `Definition()` succeeds the full
definitions are returned in `PackageReferences` order. -/
theorem C9_packages_panics_on_error (p : ProgramT) :
    (∀ m, Packages p = .panicked m →
      ∃ ref e, ref ∈ PackageReferences p ∧ refDefinition ref = .error e ∧
        m = "loading package definition: " ++ e) ∧
    ((∃ ref ∈ PackageReferences p, ∃ e, refDefinition ref = .error e) →
      ∃ m, Packages p = .panicked m) ∧
    ((∀ ref ∈ PackageReferences p, (refDefinition ref).isOk = true) →
      Packages p = .ok ((PackageReferences p).map refDefinitionD)) := by
  refine ⟨?_, ?_, ?_⟩
  · intro m hm
    rw [Packages] at hm
    exact packagesLoop_panicked (PackageReferences p) [] m hm
  · intro ⟨ref, hmem, e, hr⟩
    obtain ⟨m, hm⟩ := packagesLoop_panicked_exists (PackageReferences p) [] ref e hmem hr
    exact ⟨m, by rw [Packages]; exact hm⟩
  · intro h
    rw [Packages, packagesLoop_all_ok (PackageReferences p) [] h, List.nil_append]

/-- The C9 example program: a single reference whose definition fails. -/
def exC9Program : ProgramT :=
  ProgramT.mk [] [] [("aws", PackageReference.full "aws" (Except.error "nope"))]

/-- Witness for `C9_packages_panics_on_error` at a concrete input. -/
theorem C9_packages_panics_on_error_witness :
    ∃ m, Packages exC9Program = .panicked m :=
  (C9_packages_panics_on_error exC9Program).2.1
    ⟨PackageReference.full "aws" (Except.error "nope"),
      List.mem_singleton.mpr rfl, "nope", rfl⟩


end Pcl
